import Mathlib

/-!
Shallow embedding of `scripts/generate_stencils.py` (warp-discretization).

The script is a linear pipeline: extract display-math segments between the
literal delimiters `\[` and `\]`, strip an optional left-hand side at the
last `=`, parse each segment to a symbolic expression, build central
finite-difference stencils of order 2 and 4 for each spatial variable that
occurs free in the expression, and render the records to a LaTeX document.

Python strings are modelled as `List Char`; the external sympy entry points
(`parse_latex`, `sp.simplify`, `sp.latex`) are . . . parameters of the
pipeline, since they are library code outside this repository.  `sp.subs`,
`sp.diff` and `free_symbols` act structurally on the small expression trees
the script builds, and are modelled directly.
-/

abbrev Str := List Char

/-- Characters removed by Python's `str.strip()` (whitespace). -/
def pyIsSpace (c : Char) : Bool :=
  c = ' ' ∨ c = '\t' ∨ c = '\n' ∨ c = '\r' ∨ c = '\x0b' ∨ c = '\x0c'

/-- Model of Python `s.strip()`: remove whitespace from both ends. -/
def pyStrip (s : Str) : Str :=
  List.rdropWhile pyIsSpace (List.dropWhile pyIsSpace s)

/-- Model of Python `s.split(c)`: split at every occurrence of `c`. -/
def splitOnChar (c : Char) : Str → List Str
  | [] => [[]]
  | x :: xs =>
    if x = c then [] :: splitOnChar c xs
    else
      match splitOnChar c xs with
      | [] => [[x]]
      | p :: ps => (x :: p) :: ps

/-- Suffix of `s` after the last occurrence of `c` (all of `s` if `c` is absent). -/
def afterLast (c : Char) : Str → Str
  | [] => []
  | x :: xs =>
    if c ∈ xs then afterLast c xs
    else if x = c then xs else x :: xs

/-- Immutable symbolic-expression trees over named symbols, as built by the
script from sympy atoms (`+`, `-`, unary `-`, `*`, `/`, integer powers,
integer constants). -/
inductive Expr where
  | const : Int → Expr
  | sym : String → Expr
  | add : Expr → Expr → Expr
  | sub : Expr → Expr → Expr
  | neg : Expr → Expr
  | mul : Expr → Expr → Expr
  | div : Expr → Expr → Expr
  | pow : Expr → Nat → Expr
deriving DecidableEq

/-- Model of `expr.subs(var, r)`: replace every occurrence of the symbol
named `var` by `r`. -/
def Expr.subs : Expr → String → Expr → Expr
  | .const n, _, _ => .const n
  | .sym s, var, r => if s = var then r else .sym s
  | .add a b, var, r => .add (a.subs var r) (b.subs var r)
  | .sub a b, var, r => .sub (a.subs var r) (b.subs var r)
  | .neg a, var, r => .neg (a.subs var r)
  | .mul a b, var, r => .mul (a.subs var r) (b.subs var r)
  | .div a b, var, r => .div (a.subs var r) (b.subs var r)
  | .pow a n, var, r => .pow (a.subs var r) n

/-- Model of `expr.free_symbols` (membership is all the script uses). -/
def freeSymbols : Expr → List String
  | .const _ => []
  | .sym s => [s]
  | .add a b => freeSymbols a ++ freeSymbols b
  | .sub a b => freeSymbols a ++ freeSymbols b
  | .neg a => freeSymbols a
  | .mul a b => freeSymbols a ++ freeSymbols b
  | .div a b => freeSymbols a ++ freeSymbols b
  | .pow a _ => freeSymbols a

/-- Model of `sp.diff(expr, var)`: symbolic partial derivative. -/
def spDiff : Expr → String → Expr
  | .const _, _ => .const 0
  | .sym s, var => if s = var then .const 1 else .const 0
  | .add a b, var => .add (spDiff a var) (spDiff b var)
  | .sub a b, var => .sub (spDiff a var) (spDiff b var)
  | .neg a, var => .neg (spDiff a var)
  | .mul a b, var => .add (.mul (spDiff a var) b) (.mul a (spDiff b var))
  | .div a b, var => .div (.sub (.mul (spDiff a var) b) (.mul a (spDiff b var))) (.pow b 2)
  | .pow a n, var => .mul (.mul (.const (n : Int)) (.pow a (n - 1))) (spDiff a var)

/-- Partial evaluation of an expression at a rational assignment of the
symbols; `none` exactly when a division by zero occurs. -/
def evalO (ρ : String → ℚ) : Expr → Option ℚ
  | .const n => some ((n : ℚ))
  | .sym s => some (ρ s)
  | .add a b =>
    match evalO ρ a, evalO ρ b with
    | some x, some y => some (x + y)
    | _, _ => none
  | .sub a b =>
    match evalO ρ a, evalO ρ b with
    | some x, some y => some (x - y)
    | _, _ => none
  | .neg a => (evalO ρ a).map (fun x => -x)
  | .mul a b =>
    match evalO ρ a, evalO ρ b with
    | some x, some y => some (x * y)
    | _, _ => none
  | .div a b =>
    match evalO ρ a, evalO ρ b with
    | some x, some y => if y = 0 then none else some (x / y)
    | _, _ => none
  | .pow a n => (evalO ρ a).map (fun x => x ^ n)

/-- Sympy's `simplify` returns an expression equal to its input as a symbolic
quantity: wherever the input has a defined value, the simplified form has
that same value. -/
def SimpPreserves (simplify : Expr → Expr) : Prop :=
  ∀ e ρ v, evalO ρ e = some v → evalO ρ (simplify e) = some v

def hName : String := "h"
def rName : String := "r"
def thetaName : String := "theta"
def phiName : String := "phi"
def tName : String := "t"

def errLabel2 : Str := "O(h^2)".data
def errLabel4 : Str := "O(h^4)".data
def orderLabel2 : Str := "2nd order".data
def orderLabel4 : Str := "4th order".data

/-- Message of the `ValueError` raised for an unsupported order. -/
def unsupportedMsg (order : Nat) : Str :=
  "Unsupported stencil order: ".data ++ (toString order).data

/-- Model of `generate_central_diff(expr, var, order)`.  `simplify` stands
for the external `sp.simplify`; the `ValueError` branch becomes
`Except.error`. -/
def generate_central_diff (simplify : Expr → Expr) (expr : Expr) (var : String)
    (order : Nat) : Except Str (Expr × Str) :=
  let h := Expr.sym hName
  if order = 2 then
    Except.ok
      (simplify (Expr.div
        (Expr.sub (expr.subs var (Expr.add (Expr.sym var) h))
                  (expr.subs var (Expr.sub (Expr.sym var) h)))
        (Expr.mul (Expr.const 2) h)), errLabel2)
  else if order = 4 then
    Except.ok
      (simplify (Expr.div
        (Expr.add
          (Expr.sub
            (Expr.add (Expr.neg (expr.subs var (Expr.add (Expr.sym var) (Expr.mul (Expr.const 2) h))))
                      (Expr.mul (Expr.const 8) (expr.subs var (Expr.add (Expr.sym var) h))))
            (Expr.mul (Expr.const 8) (expr.subs var (Expr.sub (Expr.sym var) h))))
          (expr.subs var (Expr.sub (Expr.sym var) (Expr.mul (Expr.const 2) h))))
        (Expr.mul (Expr.const 12) h)), errLabel4)
  else Except.error (unsupportedMsg order)

/-- Spec formula for the order-2 stencil: (f(var+h) − f(var−h)) / (2h),
written from the specification's words. -/
def centralStencil2 (expr : Expr) (var : String) : Expr :=
  Expr.div
    (Expr.sub (expr.subs var (Expr.add (Expr.sym var) (Expr.sym hName)))
              (expr.subs var (Expr.sub (Expr.sym var) (Expr.sym hName))))
    (Expr.mul (Expr.const 2) (Expr.sym hName))

/-- Spec formula for the order-4 stencil:
(−f(var+2h) + 8 f(var+h) − 8 f(var−h) + f(var−2h)) / (12h), written from the
specification's words. -/
def centralStencil4 (expr : Expr) (var : String) : Expr :=
  Expr.div
    (Expr.add
      (Expr.sub
        (Expr.add
          (Expr.neg (expr.subs var (Expr.add (Expr.sym var) (Expr.mul (Expr.const 2) (Expr.sym hName)))))
          (Expr.mul (Expr.const 8) (expr.subs var (Expr.add (Expr.sym var) (Expr.sym hName)))))
        (Expr.mul (Expr.const 8) (expr.subs var (Expr.sub (Expr.sym var) (Expr.sym hName)))))
      (expr.subs var (Expr.sub (Expr.sym var) (Expr.mul (Expr.const 2) (Expr.sym hName)))))
    (Expr.mul (Expr.const 12) (Expr.sym hName))

/-- One `(original derivative, stencil, error label, variable, order label)`
tuple appended to the `stencils` list. -/
structure StencilRecord where
  deriv : Expr
  stencil : Expr
  err : Str
  var : String
  order : Str
deriving DecidableEq

def spatial_vars : List String := [rName, thetaName, phiName]

/-- Warning printed when stencil generation fails for a variable. -/
def genWarning (var : String) (e : Str) : Str :=
  "Warning: Could not generate stencil for ".data ++ var.data ++ ": ".data ++ e

/-- Warning printed when parsing fails, with the 50-character preview. -/
def parseWarning (s e : Str) : Str :=
  "Warning: Could not parse expression: ".data ++ s.take 50 ++ "...: ".data ++ e

/-- Body of the inner `try` of the per-variable loop: generate the stencils
at the two requested orders; an error in either generation is caught,
produces a warning, and appends no record. -/
def tryStencils (simplify : Expr → Expr) (ex : Expr) (var : String)
    (o2 o4 : Nat) : List StencilRecord × List Str :=
  match generate_central_diff simplify ex var o2 with
  | Except.error e => ([], [genWarning var e])
  | Except.ok (st2, e2) =>
    match generate_central_diff simplify ex var o4 with
    | Except.error e => ([], [genWarning var e])
    | Except.ok (st4, e4) =>
      ([{ deriv := spDiff ex var, stencil := st2, err := e2, var := var, order := orderLabel2 },
        { deriv := spDiff ex var, stencil := st4, err := e4, var := var, order := orderLabel4 }],
       [])

/-- The per-variable loop body with the orders the script requests (2 and 4). -/
def processVar (simplify : Expr → Expr) (ex : Expr) (var : String) :
    List StencilRecord × List Str :=
  tryStencils simplify ex var 2 4

/-- Loop over the relevant variables, concatenating records and warnings. -/
def processVars (simplify : Expr → Expr) (ex : Expr) :
    List String → List StencilRecord × List Str
  | [] => ([], [])
  | v :: rest =>
    let r := processVar simplify ex v
    let rr := processVars simplify ex rest
    (r.1 ++ rr.1, r.2 ++ rr.2)

/-- Post-parse stage: keep only the spatial variables that occur free in the
parsed expression, and run the per-variable loop on them. -/
def processExpr (simplify : Expr → Expr) (ex : Expr) :
    List StencilRecord × List Str :=
  processVars simplify ex (spatial_vars.filter (fun v => v ∈ freeSymbols ex))

/-- Cleanup of a raw segment: `strip`, then, when an `=` is present, take the
last `=`-separated part and `strip` it (the `else: continue` branch is
`none`). -/
def cleanSegment (s : Str) : Option Str :=
  let s1 := pyStrip s
  if '=' ∈ s1 then
    let parts := splitOnChar '=' s1
    if 2 ≤ parts.length then some (pyStrip (parts.getLastD [])) else none
  else some s1

/-- One iteration of the main loop over extracted segments.  `p` stands for
the external `parse_latex`; its exception is the `Except.error` case. -/
def processSegment (p : Str → Except Str Expr) (simplify : Expr → Expr)
    (s : Str) : List StencilRecord × List Str :=
  match cleanSegment s with
  | none => ([], [])
  | some s1 =>
    match p s1 with
    | Except.error e => ([], [parseWarning s1 e])
    | Except.ok ex => processExpr simplify ex

/-- The main loop over all extracted segments. -/
def runSegments (p : Str → Except Str Expr) (simplify : Expr → Expr) :
    List Str → List StencilRecord × List Str
  | [] => ([], [])
  | s :: rest =>
    let r := processSegment p simplify s
    let rr := runSegments p simplify rest
    (r.1 ++ rr.1, r.2 ++ rr.2)

/-- Leftmost occurrence of the two-character delimiter `c1 c2`: returns the
text before it and the text after it, scanning one character at a time as
the regex engine does. -/
def splitAtDelim (c1 c2 : Char) : Str → Option (Str × Str)
  | [] => none
  | [_] => none
  | a :: b :: rest =>
    if a = c1 ∧ b = c2 then some ([], rest)
    else (splitAtDelim c1 c2 (b :: rest)).map (fun pr => (a :: pr.1, pr.2))

/-- Whether the two-character delimiter `c1 c2` occurs in the text. -/
def hasDelim (c1 c2 : Char) : Str → Bool
  | [] => false
  | [_] => false
  | a :: b :: rest => if a = c1 ∧ b = c2 then true else hasDelim c1 c2 (b :: rest)

/-- Fuelled scanner behind `extract_expressions`: find `\[`, then capture
non-greedily up to the first `\]`, emit the content, continue after it. -/
def extractAux : Nat → Str → List Str
  | 0, _ => []
  | fuel + 1, cs =>
    match splitAtDelim '\\' '[' cs with
    | none => []
    | some (_, rest) =>
      match splitAtDelim '\\' ']' rest with
      | none => []
      | some (content, rest2) => content :: extractAux fuel rest2

/-- Model of `extract_expressions`: all substrings between `\[` and `\]`,
non-greedy, in order (`re.findall(r'\\\[(.*?)\\\]', tex, re.DOTALL)`). -/
def extract_expressions (tex : Str) : List Str :=
  extractAux tex.length tex

/-- Records and warnings produced by a whole run on the input text. -/
def runStencils (p : Str → Except Str Expr) (simplify : Expr → Expr)
    (tex : Str) : List StencilRecord × List Str :=
  runSegments p simplify (extract_expressions tex)

/-- Preamble writes of the combined document, in source order. -/
def docHeader : Str :=
  ("\\documentclass\x7barticle\x7d\n" ++ "\\usepackage\x7bamsmath\x7d\n"
   ++ "\\usepackage[margin=0.5in]\x7bgeometry\x7d\n" ++ "\\begin\x7bdocument\x7d\n\n"
   ++ "\\section*\x7bFinite Difference Stencils\x7d\n\n").data

def endDocument : Str := "\\end\x7bdocument\x7d".data

/-- One display-math block of the combined document, for one record.
`latexOf` stands for the external `sp.latex`. -/
def stencilBlock (latexOf : Expr → Str) (r : StencilRecord) : Str :=
  "% ".data ++ r.order ++ " derivative w.r.t. ".data ++ r.var.data ++ "\n".data
  ++ "\\[\n".data
  ++ latexOf r.deriv ++ " \\approx ".data ++ latexOf r.stencil
  ++ " \\quad (".data ++ r.err ++ ")\n".data
  ++ "\\]\n\n".data

def stencilBlocks (latexOf : Expr → Str) : List StencilRecord → Str
  | [] => []
  | r :: rest => stencilBlock latexOf r ++ stencilBlocks latexOf rest

/-- Content of the combined output document for a record list. -/
def combinedDocument (latexOf : Expr → Str) (records : List StencilRecord) : Str :=
  docHeader ++ stencilBlocks latexOf records ++ endDocument

/-- Whole pipeline: input text to combined-document content. -/
def fullRun (p : Str → Except Str Expr) (simplify : Expr → Expr)
    (latexOf : Expr → Str) (tex : Str) : Str :=
  combinedDocument latexOf (runStencils p simplify tex).1

/-- Spec-side description of the parse target for an equality-bearing
segment: the substring after the last `=`, trimmed of whitespace. -/
def rhsAfterLastEq (s : Str) : Str :=
  pyStrip (afterLast '=' s)

/-- Expression `r^2` of the testable property in §8 of the spec. -/
def rSquared : Expr := Expr.pow (Expr.sym rName) 2

/-! String lemmas: interaction of `strip`, `split('=')` and the last-`=`
suffix, needed to settle the parser claims. -/

lemma afterLast_cons_mem {c x : Char} {xs : Str} (hm : c ∈ xs) :
    afterLast c (x :: xs) = afterLast c xs := by
  simp [afterLast, hm]

lemma afterLast_cons_self {c x : Char} {xs : Str} (hx : x = c) (hm : c ∉ xs) :
    afterLast c (x :: xs) = xs := by
  simp [afterLast, hm, hx]

lemma afterLast_cons_other {c x : Char} {xs : Str} (hx : ¬x = c) (hm : c ∉ xs) :
    afterLast c (x :: xs) = x :: xs := by
  simp [afterLast, hm, hx]

lemma splitOnChar_cons_eq {c x : Char} {xs : Str} (hx : x = c) :
    splitOnChar c (x :: xs) = [] :: splitOnChar c xs := by
  simp [splitOnChar, hx]

lemma splitOnChar_cons_ne {c x : Char} {xs : Str} {p : Str} {ps : List Str}
    (hx : ¬x = c) (h : splitOnChar c xs = p :: ps) :
    splitOnChar c (x :: xs) = (x :: p) :: ps := by
  simp [splitOnChar, hx, h]

lemma dropWhile_append_cons {c : Char} (hc : pyIsSpace c = false) (xs ys : Str) :
    List.dropWhile pyIsSpace (xs ++ c :: ys) = List.dropWhile pyIsSpace xs ++ c :: ys := by
  rw [List.dropWhile_append]
  by_cases h : (List.dropWhile pyIsSpace xs).isEmpty
  · rw [if_pos h, List.dropWhile_cons, hc]
    rw [List.isEmpty_iff] at h
    rw [h]
    rfl
  · rw [if_neg h]

lemma rdropWhile_append_cons {c : Char} (hc : pyIsSpace c = false) (xs ys : Str) :
    List.rdropWhile pyIsSpace (xs ++ c :: ys) = xs ++ c :: List.rdropWhile pyIsSpace ys := by
  unfold List.rdropWhile
  rw [List.reverse_append, List.reverse_cons, List.append_assoc, List.singleton_append,
    dropWhile_append_cons hc, List.reverse_append, List.reverse_cons, List.reverse_reverse]
  simp

lemma pyStrip_decomp {c : Char} (hc : pyIsSpace c = false) (a b : Str) :
    pyStrip (a ++ c :: b) =
      List.dropWhile pyIsSpace a ++ c :: List.rdropWhile pyIsSpace b := by
  unfold pyStrip
  rw [dropWhile_append_cons hc, rdropWhile_append_cons hc]

lemma mem_of_mem_rdropWhile {x : Char} {l : Str} (h : x ∈ List.rdropWhile pyIsSpace l) :
    x ∈ l :=
  (List.rdropWhile_prefix pyIsSpace l).subset h

lemma dropWhile_rdropWhile_comm (l : Str) :
    List.dropWhile pyIsSpace (List.rdropWhile pyIsSpace l) =
      List.rdropWhile pyIsSpace (List.dropWhile pyIsSpace l) := by
  induction l using List.reverseRecOn with
  | nil => simp
  | append_singleton xs a ih =>
    by_cases ha : pyIsSpace a
    · rw [List.rdropWhile_concat_pos _ _ _ ha, ih, List.dropWhile_append]
      by_cases hxs : (List.dropWhile pyIsSpace xs).isEmpty
      · have hxs' : List.dropWhile pyIsSpace xs = [] := by rwa [List.isEmpty_iff] at hxs
        rw [if_pos hxs, hxs']
        simp [List.dropWhile_cons, ha]
      · rw [if_neg hxs, List.rdropWhile_concat_pos _ _ _ ha]
    · rw [List.rdropWhile_concat_neg _ _ _ ha, List.dropWhile_append]
      by_cases hxs : (List.dropWhile pyIsSpace xs).isEmpty
      · rw [if_pos hxs]
        simp [List.dropWhile_cons, ha, List.rdropWhile_singleton]
      · rw [if_neg hxs, List.rdropWhile_concat_neg _ _ _ ha]

lemma pyStrip_rdropWhile (b : Str) :
    pyStrip (List.rdropWhile pyIsSpace b) = pyStrip b := by
  unfold pyStrip
  rw [dropWhile_rdropWhile_comm, List.rdropWhile_idempotent]

lemma afterLast_not_mem {c : Char} {s : Str} (h : c ∉ s) : afterLast c s = s := by
  induction s with
  | nil => rfl
  | cons x xs ih =>
    have hx : ¬x = c := fun he => h (he ▸ List.mem_cons_self x xs)
    have hxs : c ∉ xs := fun hm => h (List.mem_cons_of_mem x hm)
    rw [afterLast_cons_other hx hxs]

lemma afterLast_append_cons {c : Char} {b : Str} (hb : c ∉ b) (a : Str) :
    afterLast c (a ++ c :: b) = b := by
  induction a with
  | nil => rw [List.nil_append, afterLast_cons_self rfl hb]
  | cons x a ih =>
    have hm : c ∈ a ++ c :: b := List.mem_append_right a (List.mem_cons_self c b)
    rw [List.cons_append, afterLast_cons_mem hm, ih]

lemma exists_last_occurrence {c : Char} {s : Str} (h : c ∈ s) :
    ∃ a b : Str, s = a ++ c :: b ∧ c ∉ b := by
  induction s with
  | nil => cases h
  | cons x xs ih =>
    by_cases hm : c ∈ xs
    · obtain ⟨a, b, rfl, hb⟩ := ih hm
      exact ⟨x :: a, b, rfl, hb⟩
    · have hx : x = c := by
        rcases List.mem_cons.1 h with h' | h'
        · exact h'.symm
        · exact absurd h' hm
      exact ⟨[], xs, by rw [hx]; rfl, hm⟩

lemma splitOnChar_ne_nil (c : Char) (s : Str) : splitOnChar c s ≠ [] := by
  cases s with
  | nil => simp [splitOnChar]
  | cons x xs =>
    by_cases hx : x = c
    · rw [splitOnChar_cons_eq hx]
      simp
    · cases hsp : splitOnChar c xs with
      | nil => simp [splitOnChar, hx, hsp]
      | cons p ps =>
        rw [splitOnChar_cons_ne hx hsp]
        simp

lemma splitOnChar_not_mem {c : Char} {s : Str} (h : c ∉ s) : splitOnChar c s = [s] := by
  induction s with
  | nil => rfl
  | cons x xs ih =>
    have hx : ¬x = c := fun he => h (he ▸ List.mem_cons_self x xs)
    have hxs : c ∉ xs := fun hm => h (List.mem_cons_of_mem x hm)
    rw [splitOnChar_cons_ne hx (ih hxs)]

lemma splitOnChar_length_ge_two {c : Char} {s : Str} (h : c ∈ s) :
    2 ≤ (splitOnChar c s).length := by
  induction s with
  | nil => cases h
  | cons x xs ih =>
    by_cases hx : x = c
    · have h1 : 1 ≤ (splitOnChar c xs).length :=
        List.length_pos.2 (splitOnChar_ne_nil c xs)
      rw [splitOnChar_cons_eq hx, List.length_cons]
      omega
    · have hm : c ∈ xs := by
        rcases List.mem_cons.1 h with h' | h'
        · exact absurd h'.symm hx
        · exact h'
      cases hsp : splitOnChar c xs with
      | nil => exact absurd hsp (splitOnChar_ne_nil c xs)
      | cons p ps =>
        have h2 := ih hm
        rw [hsp] at h2
        rw [splitOnChar_cons_ne hx hsp]
        simpa using h2

lemma getLastD_splitOnChar (c : Char) (s : Str) :
    (splitOnChar c s).getLastD [] = afterLast c s := by
  induction s with
  | nil => rfl
  | cons x xs ih =>
    by_cases hx : x = c
    · rw [splitOnChar_cons_eq hx, List.getLastD_cons]
      by_cases hm : c ∈ xs
      · rw [afterLast_cons_mem hm, ← ih]
      · rw [splitOnChar_not_mem hm, afterLast_cons_self hx hm]
        simp
    · by_cases hm : c ∈ xs
      · cases hsp : splitOnChar c xs with
        | nil => exact absurd hsp (splitOnChar_ne_nil c xs)
        | cons p ps =>
          rw [splitOnChar_cons_ne hx hsp, afterLast_cons_mem hm, ← ih, hsp]
          cases ps with
          | nil =>
            have h2 := splitOnChar_length_ge_two hm
            rw [hsp] at h2
            simp at h2
          | cons q qs => simp [List.getLastD_cons]
      · rw [splitOnChar_cons_ne hx (splitOnChar_not_mem hm), afterLast_cons_other hx hm]
        simp

lemma pyIsSpace_eq_false : pyIsSpace '=' = false := by decide

/-- C3: for every extracted math substring that contains at least one
equality sign, the parser parses only the substring after the last equality
sign, trimmed of whitespace. -/
theorem c3_parse_rhs_of_last_eq (s : Str) (hs : '=' ∈ s) :
    cleanSegment s = some (rhsAfterLastEq s) := by
  obtain ⟨a, b, rfl, hb⟩ := exists_last_occurrence hs
  have hstrip := pyStrip_decomp pyIsSpace_eq_false a b
  have hmem : '=' ∈ pyStrip (a ++ '=' :: b) := by
    rw [hstrip]
    exact List.mem_append_right _ (List.mem_cons_self _ _)
  have hBnm : '=' ∉ List.rdropWhile pyIsSpace b := fun h => hb (mem_of_mem_rdropWhile h)
  simp only [cleanSegment]
  rw [if_pos hmem, if_pos (splitOnChar_length_ge_two hmem), getLastD_splitOnChar,
    hstrip, afterLast_append_cons hBnm, rhsAfterLastEq, afterLast_append_cons hb,
    pyStrip_rdropWhile]

/-- Witness for C3 at the spec's example segment `u = r^2 + \theta`. -/
theorem c3_parse_rhs_of_last_eq_witness :
    '=' ∈ "u = r^2 + \\theta".data ∧
      cleanSegment "u = r^2 + \\theta".data = some ("r^2 + \\theta".data) :=
  ⟨by decide, (c3_parse_rhs_of_last_eq _ (by decide)).trans (by decide)⟩

/-! Lemmas about the display-math extractor. -/

lemma splitAtDelim_cons2 (c1 c2 a b : Char) (rest : Str) :
    splitAtDelim c1 c2 (a :: b :: rest) =
      if a = c1 ∧ b = c2 then some ([], rest)
      else (splitAtDelim c1 c2 (b :: rest)).map (fun pr => (a :: pr.1, pr.2)) := rfl

lemma hasDelim_cons2 (c1 c2 a b : Char) (rest : Str) :
    hasDelim c1 c2 (a :: b :: rest) =
      if a = c1 ∧ b = c2 then true else hasDelim c1 c2 (b :: rest) := rfl

lemma splitAtDelim_eq_none {c1 c2 : Char} :
    ∀ (s : Str), hasDelim c1 c2 s = false → splitAtDelim c1 c2 s = none := by
  intro s
  induction s with
  | nil => intro _; rfl
  | cons a s ih =>
    intro h
    cases s with
    | nil => rfl
    | cons b rest =>
      rw [splitAtDelim_cons2]
      rw [hasDelim_cons2] at h
      by_cases hc : a = c1 ∧ b = c2
      · rw [if_pos hc] at h
        exact absurd h (by simp)
      · rw [if_neg hc] at h
        rw [if_neg hc, ih h]
        rfl

lemma splitAtDelim_append {c1 c2 : Char} (h12 : c1 ≠ c2) :
    ∀ (p rest : Str), hasDelim c1 c2 p = false →
      splitAtDelim c1 c2 (p ++ c1 :: c2 :: rest) = some (p, rest) := by
  intro p
  induction p with
  | nil =>
    intro rest _
    rw [List.nil_append, splitAtDelim_cons2, if_pos ⟨rfl, rfl⟩]
  | cons x p ih =>
    intro rest hp
    rw [List.cons_append]
    cases p with
    | nil =>
      rw [List.nil_append, splitAtDelim_cons2, if_neg (fun hc => h12 hc.2),
        splitAtDelim_cons2, if_pos ⟨rfl, rfl⟩]
      rfl
    | cons y p' =>
      rw [hasDelim_cons2] at hp
      by_cases hc : x = c1 ∧ y = c2
      · rw [if_pos hc] at hp
        exact absurd hp (by simp)
      · rw [if_neg hc] at hp
        rw [List.cons_append, splitAtDelim_cons2, if_neg hc, ← List.cons_append,
          ih rest hp]
        rfl

lemma splitAtDelim_length {c1 c2 : Char} :
    ∀ {s a r : Str}, splitAtDelim c1 c2 s = some (a, r) →
      s.length = a.length + 2 + r.length := by
  intro s
  induction s with
  | nil => intro a r h; simp [splitAtDelim] at h
  | cons x s ih =>
    intro a r h
    cases s with
    | nil => simp [splitAtDelim] at h
    | cons b rest =>
      rw [splitAtDelim_cons2] at h
      by_cases hc : x = c1 ∧ b = c2
      · rw [if_pos hc] at h
        simp only [Option.some.injEq, Prod.mk.injEq] at h
        obtain ⟨ha, hr⟩ := h
        subst ha
        subst hr
        simp [List.length_cons]
        omega
      · rw [if_neg hc] at h
        cases h' : splitAtDelim c1 c2 (b :: rest) with
        | none => rw [h'] at h; simp at h
        | some pr =>
          rw [h'] at h
          simp only [Option.map, Option.some.injEq] at h
          obtain ⟨a', r'⟩ := pr
          have hl := ih h'
          simp only [Prod.mk.injEq] at h
          obtain ⟨ha, hr⟩ := h
          subst ha
          subst hr
          simp [List.length_cons] at hl ⊢
          omega

lemma extractAux_succ (n : Nat) (cs : Str) :
    extractAux (n + 1) cs =
      match splitAtDelim '\\' '[' cs with
      | none => []
      | some (_, rest) =>
        match splitAtDelim '\\' ']' rest with
        | none => []
        | some (content, rest2) => content :: extractAux n rest2 := rfl

lemma extractAux_succ_none1 (n : Nat) {cs : Str}
    (h1 : splitAtDelim '\\' '[' cs = none) : extractAux (n + 1) cs = [] := by
  rw [extractAux_succ, h1]

lemma extractAux_succ_none2 (n : Nat) {cs a rest : Str}
    (h1 : splitAtDelim '\\' '[' cs = some (a, rest))
    (h2 : splitAtDelim '\\' ']' rest = none) : extractAux (n + 1) cs = [] := by
  rw [extractAux_succ]
  simp only [h1, h2]

lemma extractAux_succ_some (n : Nat) {cs a rest content rest2 : Str}
    (h1 : splitAtDelim '\\' '[' cs = some (a, rest))
    (h2 : splitAtDelim '\\' ']' rest = some (content, rest2)) :
    extractAux (n + 1) cs = content :: extractAux n rest2 := by
  rw [extractAux_succ]
  simp only [h1, h2]

lemma extractAux_fuel (fuel : Nat) :
    ∀ (cs : Str), cs.length ≤ fuel → extractAux fuel cs = extractAux cs.length cs := by
  induction fuel using Nat.strong_induction_on with
  | _ fuel ih =>
    intro cs hlen
    cases fuel with
    | zero =>
      have h0 : cs = [] := List.length_eq_zero.1 (Nat.le_zero.1 hlen)
      rw [h0]
      rfl
    | succ f =>
      cases cs with
      | nil => rfl
      | cons c cs' =>
        simp only [List.length_cons] at hlen
        cases h1 : splitAtDelim '\\' '[' (c :: cs') with
        | none =>
          rw [extractAux_succ_none1 f h1,
            show (c :: cs').length = cs'.length + 1 from rfl,
            extractAux_succ_none1 cs'.length h1]
        | some pr1 =>
          obtain ⟨a1, rest⟩ := pr1
          cases h2 : splitAtDelim '\\' ']' rest with
          | none =>
            rw [extractAux_succ_none2 f h1 h2,
              show (c :: cs').length = cs'.length + 1 from rfl,
              extractAux_succ_none2 cs'.length h1 h2]
          | some pr2 =>
            obtain ⟨content, rest2⟩ := pr2
            have hl1 := splitAtDelim_length h1
            have hl2 := splitAtDelim_length h2
            simp only [List.length_cons] at hl1
            rw [extractAux_succ_some f h1 h2,
              show (c :: cs').length = cs'.length + 1 from rfl,
              extractAux_succ_some cs'.length h1 h2,
              ih f (Nat.lt_succ_self f) rest2 (by omega),
              ih cs'.length (by omega) rest2 (by omega)]

lemma extractAux_no_open (fuel : Nat) (cs : Str)
    (h : hasDelim '\\' '[' cs = false) : extractAux fuel cs = [] := by
  cases fuel with
  | zero => rfl
  | succ n => exact extractAux_succ_none1 n (splitAtDelim_eq_none cs h)

lemma extract_expressions_decomp (pre mid post : Str)
    (hpre : hasDelim '\\' '[' pre = false)
    (hmid : hasDelim '\\' ']' mid = false) :
    extract_expressions (pre ++ '\\' :: '[' :: (mid ++ '\\' :: ']' :: post)) =
      mid :: extract_expressions post := by
  have h1 := splitAtDelim_append (show ('\\' : Char) ≠ '[' by decide) pre
    (mid ++ '\\' :: ']' :: post) hpre
  have h2 := splitAtDelim_append (show ('\\' : Char) ≠ ']' by decide) mid post hmid
  have hlen : (pre ++ '\\' :: '[' :: (mid ++ '\\' :: ']' :: post)).length =
      (pre.length + mid.length + post.length + 3) + 1 := by
    simp [List.length_append, List.length_cons]
    omega
  rw [extract_expressions, hlen,
    extractAux_succ_some (pre.length + mid.length + post.length + 3) h1 h2,
    extractAux_fuel (pre.length + mid.length + post.length + 3) post (by omega)]
  rfl

/-! Pipeline lemmas. -/

lemma runSegments_append (p : Str → Except Str Expr) (sf : Expr → Expr)
    (xs ys : List Str) :
    runSegments p sf (xs ++ ys) =
      ((runSegments p sf xs).1 ++ (runSegments p sf ys).1,
       (runSegments p sf xs).2 ++ (runSegments p sf ys).2) := by
  induction xs with
  | nil => simp [runSegments]
  | cons s xs ih => simp [runSegments, ih]

lemma processSegment_parse_error (p : Str → Except Str Expr) (sf : Expr → Expr)
    (s s1 e : Str) (h1 : cleanSegment s = some s1) (h2 : p s1 = Except.error e) :
    processSegment p sf s = ([], [parseWarning s1 e]) := by
  simp [processSegment, h1, h2]

lemma var_eq_of_mem_tryStencils (sf : Expr → Expr) (ex : Expr) (v : String)
    (o2 o4 : Nat) (r : StencilRecord) (h : r ∈ (tryStencils sf ex v o2 o4).1) :
    r.var = v := by
  cases hg2 : generate_central_diff sf ex v o2 with
  | error e =>
    simp only [tryStencils, hg2] at h
    exact absurd h (List.not_mem_nil r)
  | ok pr =>
    obtain ⟨st2, e2⟩ := pr
    cases hg4 : generate_central_diff sf ex v o4 with
    | error e =>
      simp only [tryStencils, hg2, hg4] at h
      exact absurd h (List.not_mem_nil r)
    | ok pr4 =>
      obtain ⟨st4, e4⟩ := pr4
      simp only [tryStencils, hg2, hg4, List.mem_cons] at h
      rcases h with h | h | h
      · rw [h]
      · rw [h]
      · exact absurd h (List.not_mem_nil r)

lemma var_mem_of_mem_processVars (sf : Expr → Expr) (ex : Expr) :
    ∀ (vs : List String) (r : StencilRecord),
      r ∈ (processVars sf ex vs).1 → r.var ∈ vs := by
  intro vs
  induction vs with
  | nil => intro r h; simp [processVars] at h
  | cons v vs ih =>
    intro r h
    simp only [processVars] at h
    rcases List.mem_append.1 h with h | h
    · rw [var_eq_of_mem_tryStencils sf ex v 2 4 r h]
      exact List.mem_cons_self v vs
    · exact List.mem_cons_of_mem v (ih r h)

lemma var_free_of_mem_processExpr (sf : Expr → Expr) (ex : Expr)
    (r : StencilRecord) (h : r ∈ (processExpr sf ex).1) :
    r.var ∈ spatial_vars ∧ r.var ∈ freeSymbols ex := by
  have h1 := var_mem_of_mem_processVars sf ex _ r h
  have h2 := List.mem_filter.1 h1
  exact ⟨h2.1, of_decide_eq_true h2.2⟩

lemma var_spatial_of_mem_runSegments (p : Str → Except Str Expr) (sf : Expr → Expr) :
    ∀ (segs : List Str) (r : StencilRecord),
      r ∈ (runSegments p sf segs).1 → r.var ∈ spatial_vars := by
  intro segs
  induction segs with
  | nil => intro r h; simp [runSegments] at h
  | cons s segs ih =>
    intro r h
    simp only [runSegments] at h
    rcases List.mem_append.1 h with h | h
    · cases hc : cleanSegment s with
      | none =>
        simp only [processSegment, hc] at h
        exact absurd h (List.not_mem_nil r)
      | some s1 =>
        cases hp : p s1 with
        | error e =>
          simp only [processSegment, hc, hp] at h
          exact absurd h (List.not_mem_nil r)
        | ok ex =>
          simp only [processSegment, hc, hp] at h
          exact (var_free_of_mem_processExpr sf ex r h).1
    · exact ih r h

/-- C5: a parse failure on one segment is isolated to that segment: it is
logged with the truncated 50-character preview, contributes no records, and
the segments before and after it are processed as if it were absent. -/
theorem c5_parse_failure_isolated (p : Str → Except Str Expr) (sf : Expr → Expr)
    (a c : List Str) (bad s1 emsg : Str)
    (h1 : cleanSegment bad = some s1) (h2 : p s1 = Except.error emsg) :
    (runSegments p sf (a ++ bad :: c)).1 =
        (runSegments p sf a).1 ++ (runSegments p sf c).1 ∧
      (runSegments p sf (a ++ bad :: c)).2 =
        (runSegments p sf a).2 ++ parseWarning s1 emsg :: (runSegments p sf c).2 := by
  have hb := processSegment_parse_error p sf bad s1 emsg h1 h2
  refine ⟨?_, ?_⟩ <;> simp [runSegments_append, runSegments, hb]

/-- C6: a stencil record is generated for a variable only when the variable
occurs in the free-symbol set of the parsed expression: a variable that is
not free yields no record. -/
theorem c6_only_free_variables (sf : Expr → Expr) (ex : Expr) (var : String)
    (hvar : var ∉ freeSymbols ex) :
    ∀ r ∈ (processExpr sf ex).1, r.var ≠ var := by
  intro r hr heq
  have h2 := (var_free_of_mem_processExpr sf ex r hr).2
  rw [heq] at h2
  exact hvar h2

/-- Witness for C6: `theta` is not free in `r^2`, and no record of the
post-parse stage for `r^2` carries the variable `theta`. -/
theorem c6_only_free_variables_witness :
    thetaName ∉ freeSymbols rSquared ∧
      ∀ r ∈ (processExpr id rSquared).1, r.var ≠ thetaName :=
  ⟨by decide, c6_only_free_variables id rSquared thetaName (by decide)⟩

/-- C10: every record produced by a run carries one of the spatial variables
`r`, `theta`, `phi`; in particular no record is ever generated for the time
variable `t`, even when `t` occurs free in a parsed expression. -/
theorem c10_no_time_variable_records (p : Str → Except Str Expr)
    (sf : Expr → Expr) (tex : Str) :
    ∀ r ∈ (runStencils p sf tex).1, r.var ∈ spatial_vars ∧ r.var ≠ tName := by
  intro r hr
  have hs := var_spatial_of_mem_runSegments p sf (extract_expressions tex) r hr
  refine ⟨hs, fun he => ?_⟩
  rw [he] at hs
  exact (by decide : tName ∉ spatial_vars) hs

def pRT : Str → Except Str Expr :=
  fun _ => Except.ok (Expr.add (Expr.sym rName) (Expr.sym tName))

def texRT : Str := "\\[x\\]".data

def recRT : StencilRecord :=
  (runStencils pRT id texRT).1.headD
    { deriv := Expr.const 0, stencil := Expr.const 0, err := [], var := tName, order := [] }

/-- Witness for C10 at a run whose parsed expression has `t` free. -/
theorem c10_no_time_variable_records_witness :
    recRT ∈ (runStencils pRT id texRT).1 ∧ recRT.var ∈ spatial_vars ∧ recRT.var ≠ tName :=
  ⟨by decide, c10_no_time_variable_records pRT id texRT recRT (by decide)⟩

def pC5 : Str → Except Str Expr :=
  fun s => if s = "x".data then Except.error ("boom".data) else Except.ok rSquared

/-- Witness for C5: the middle segment fails to parse, the outer segments
are unaffected, and the warning carries the preview. -/
theorem c5_parse_failure_isolated_witness :
    cleanSegment ("x".data) = some ("x".data) ∧
      (runSegments pC5 id (["a".data] ++ "x".data :: ["b".data])).1 =
        (runSegments pC5 id ["a".data]).1 ++ (runSegments pC5 id ["b".data]).1 ∧
      (runSegments pC5 id (["a".data] ++ "x".data :: ["b".data])).2 =
        (runSegments pC5 id ["a".data]).2 ++
          parseWarning ("x".data) ("boom".data) :: (runSegments pC5 id ["b".data]).2 :=
  ⟨by decide,
    (c5_parse_failure_isolated pC5 id ["a".data] ["b".data] ("x".data) ("x".data)
      ("boom".data) (by decide) rfl).1,
    (c5_parse_failure_isolated pC5 id ["a".data] ["b".data] ("x".data) ("x".data)
      ("boom".data) (by decide) rfl).2⟩

/-- C1: for every expression and variable, order 2 returns the simplified
central-difference stencil (f(var+h) − f(var−h))/(2h) with label "O(h^2)",
and order 4 returns the simplified five-point stencil
(−f(var+2h) + 8f(var+h) − 8f(var−h) + f(var−2h))/(12h) with label "O(h^4)";
the simplification step preserves the stencil's value wherever it is
defined. -/
theorem c1_central_diff_formulas (sf : Expr → Expr) (expr : Expr) (var : String)
    (hs : SimpPreserves sf) :
    generate_central_diff sf expr var 2 =
        Except.ok (sf (centralStencil2 expr var), errLabel2) ∧
      generate_central_diff sf expr var 4 =
        Except.ok (sf (centralStencil4 expr var), errLabel4) ∧
      (∀ ρ v, evalO ρ (centralStencil2 expr var) = some v →
        evalO ρ (sf (centralStencil2 expr var)) = some v) ∧
      (∀ ρ v, evalO ρ (centralStencil4 expr var) = some v →
        evalO ρ (sf (centralStencil4 expr var)) = some v) :=
  ⟨rfl, rfl, fun ρ v h => hs _ ρ v h, fun ρ v h => hs _ ρ v h⟩

/-- Witness for C1 with the identity simplifier and the expression `r^2`. -/
theorem c1_central_diff_formulas_witness :
    generate_central_diff id rSquared rName 2 =
        Except.ok (id (centralStencil2 rSquared rName), errLabel2) ∧
      generate_central_diff id rSquared rName 4 =
        Except.ok (id (centralStencil4 rSquared rName), errLabel4) :=
  ⟨(c1_central_diff_formulas id rSquared rName (fun _ _ _ h => h)).1,
   (c1_central_diff_formulas id rSquared rName (fun _ _ _ h => h)).2.1⟩

/-- C2: every order other than 2 and 4 makes `generate_central_diff` fail
with the "Unsupported stencil order" condition, and the call site catches
it: the per-variable step yields no record, only the printed warning, and
the run goes on (the step is a total function). -/
theorem c2_unsupported_order_caught (sf : Expr → Expr) (ex : Expr) (var : String)
    (order : Nat) (h2 : order ≠ 2) (h4 : order ≠ 4) :
    generate_central_diff sf ex var order = Except.error (unsupportedMsg order) ∧
      (∀ o4, tryStencils sf ex var order o4 =
        ([], [genWarning var (unsupportedMsg order)])) ∧
      tryStencils sf ex var 2 order =
        ([], [genWarning var (unsupportedMsg order)]) := by
  have hg : generate_central_diff sf ex var order = Except.error (unsupportedMsg order) := by
    simp [generate_central_diff, h2, h4]
  refine ⟨hg, fun o4 => ?_, ?_⟩
  · simp [tryStencils, hg]
  · have hg2 : generate_central_diff sf ex var 2 =
        Except.ok (sf (centralStencil2 ex var), errLabel2) := rfl
    simp [tryStencils, hg, hg2]

/-- Witness for C2 at the unsupported order 3. -/
theorem c2_unsupported_order_caught_witness :
    generate_central_diff id rSquared rName 3 = Except.error (unsupportedMsg 3) ∧
      tryStencils id rSquared rName 3 4 =
        ([], [genWarning rName (unsupportedMsg 3)]) ∧
      tryStencils id rSquared rName 2 3 =
        ([], [genWarning rName (unsupportedMsg 3)]) :=
  ⟨(c2_unsupported_order_caught id rSquared rName 3 (by decide) (by decide)).1,
   (c2_unsupported_order_caught id rSquared rName 3 (by decide) (by decide)).2.1 4,
   (c2_unsupported_order_caught id rSquared rName 3 (by decide) (by decide)).2.2⟩

lemma hasDelim_first_decomp {c1 c2 : Char} :
    ∀ (cs : Str), hasDelim c1 c2 cs = true →
      ∃ a b : Str, cs = a ++ c1 :: c2 :: b ∧ hasDelim c1 c2 a = false := by
  intro cs
  induction cs with
  | nil => intro h; simp [hasDelim] at h
  | cons x cs ih =>
    intro h
    cases cs with
    | nil => simp [hasDelim] at h
    | cons y rest =>
      rw [hasDelim_cons2] at h
      by_cases hc : x = c1 ∧ y = c2
      · exact ⟨[], rest, by rw [hc.1, hc.2]; rfl, rfl⟩
      · rw [if_neg hc] at h
        obtain ⟨a, b, heq, ha⟩ := ih h
        refine ⟨x :: a, b, by rw [List.cons_append, ← heq], ?_⟩
        cases a with
        | nil => rfl
        | cons z a2 =>
          simp only [List.cons_append] at heq
          injection heq with h1 h2
          rw [h1] at hc
          rw [hasDelim_cons2, if_neg hc]
          exact ha

lemma extract_expressions_dangling (pre rest : Str)
    (hpre : hasDelim '\\' '[' pre = false)
    (hrest : hasDelim '\\' ']' rest = false) :
    extract_expressions (pre ++ '\\' :: '[' :: rest) = [] := by
  have h1 := splitAtDelim_append (show ('\\' : Char) ≠ '[' by decide) pre rest hpre
  have h2 := splitAtDelim_eq_none rest hrest
  have hlen : (pre ++ '\\' :: '[' :: rest).length = (pre.length + rest.length + 1) + 1 := by
    simp [List.length_append, List.length_cons]
    omega
  rw [extract_expressions, hlen, extractAux_succ_none2 (pre.length + rest.length + 1) h1 h2]

lemma extract_coverage (cs : Str) :
    hasDelim '\\' '[' cs = false ∨
      ∃ p2 r2 : Str, cs = p2 ++ '\\' :: '[' :: r2 ∧ hasDelim '\\' '[' p2 = false ∧
        (hasDelim '\\' ']' r2 = false ∨
          ∃ m2 q2 : Str, r2 = m2 ++ '\\' :: ']' :: q2 ∧ hasDelim '\\' ']' m2 = false) := by
  by_cases h1 : hasDelim '\\' '[' cs = false
  · exact Or.inl h1
  · right
    have h1t : hasDelim '\\' '[' cs = true := by
      cases hb : hasDelim '\\' '[' cs
      · exact absurd hb h1
      · rfl
    obtain ⟨p2, r2, heq, hp2⟩ := hasDelim_first_decomp cs h1t
    refine ⟨p2, r2, heq, hp2, ?_⟩
    by_cases h2 : hasDelim '\\' ']' r2 = false
    · exact Or.inl h2
    · right
      have h2t : hasDelim '\\' ']' r2 = true := by
        cases hb : hasDelim '\\' ']' r2
        · exact absurd hb h2
        · rfl
      exact hasDelim_first_decomp r2 h2t

/-- C4: `extract_expressions` returns exactly the substrings between `\[`
and `\]`, matched non-greedily, in order of occurrence, without
deduplication or validation: the empty input yields the empty sequence, an
input with no `\[` yields the empty sequence, an input whose first `\[` is
never followed by `\]` yields the empty sequence, and a text decomposing as
`pre \[ mid \] post` (first open delimiter after `pre`, no `\]` inside
`mid`) yields `mid` followed by the extraction of `post`; the final
conjunct shows every raw input falls under one of these equations, so they
determine the extractor on all inputs. -/
theorem c4_extract_display_math (pre mid post : Str)
    (hpre : hasDelim '\\' '[' pre = false)
    (hmid : hasDelim '\\' ']' mid = false) :
    extract_expressions ([] : Str) = [] ∧
      (∀ cs : Str, hasDelim '\\' '[' cs = false → extract_expressions cs = []) ∧
      (∀ p2 r2 : Str, hasDelim '\\' '[' p2 = false → hasDelim '\\' ']' r2 = false →
        extract_expressions (p2 ++ '\\' :: '[' :: r2) = []) ∧
      extract_expressions (pre ++ '\\' :: '[' :: (mid ++ '\\' :: ']' :: post)) =
        mid :: extract_expressions post ∧
      (∀ cs : Str, hasDelim '\\' '[' cs = false ∨
        ∃ p2 r2 : Str, cs = p2 ++ '\\' :: '[' :: r2 ∧ hasDelim '\\' '[' p2 = false ∧
          (hasDelim '\\' ']' r2 = false ∨
            ∃ m2 q2 : Str, r2 = m2 ++ '\\' :: ']' :: q2 ∧ hasDelim '\\' ']' m2 = false)) :=
  ⟨rfl, fun cs h => extractAux_no_open cs.length cs h,
   fun p2 r2 h1 h2 => extract_expressions_dangling p2 r2 h1 h2,
   extract_expressions_decomp pre mid post hpre hmid,
   fun cs => extract_coverage cs⟩

/-- Witness for C4: a decomposition whose tail has a dangling `\[`, and the
dangling-open equation applied to `\[abc`. -/
theorem c4_extract_display_math_witness :
    hasDelim '\\' '[' ("pre ".data) = false ∧
      hasDelim '\\' ']' (" x + y ".data) = false ∧
      extract_expressions
          ("pre ".data ++ '\\' :: '[' :: (" x + y ".data ++ '\\' :: ']' :: " post \\[z".data)) =
        " x + y ".data :: extract_expressions (" post \\[z".data) ∧
      extract_expressions (([] : Str) ++ '\\' :: '[' :: "abc".data) = [] :=
  ⟨by decide, by decide,
   (c4_extract_display_math ("pre ".data) (" x + y ".data) (" post \\[z".data)
     (by decide) (by decide)).2.2.2.1,
   (c4_extract_display_math ("pre ".data) (" x + y ".data) (" post \\[z".data)
     (by decide) (by decide)).2.2.1 ([] : Str) ("abc".data) (by decide) (by decide)⟩

/-- C7: the order-2 stencil of `r^2` with respect to `r`, after
simplification, is symbolically exactly `2 r`: at every assignment with
`h ≠ 0` it evaluates to `2 r`, with `h` eliminated. -/
theorem c7_rsq_stencil_is_2r (sf : Expr → Expr) (hs : SimpPreserves sf) :
    ∃ st, generate_central_diff sf rSquared rName 2 = Except.ok (st, errLabel2) ∧
      ∀ ρ : String → ℚ, ρ hName ≠ 0 → evalO ρ st = some (2 * ρ rName) := by
  refine ⟨sf (centralStencil2 rSquared rName), rfl, fun ρ hh => ?_⟩
  apply hs
  have hden : (2 : ℚ) * ρ hName ≠ 0 := mul_ne_zero two_ne_zero hh
  simp only [centralStencil2, rSquared, Expr.subs, evalO, Option.map,
    if_pos rfl, Int.cast_ofNat]
  rw [if_neg hden]
  rw [Option.some.injEq]
  field_simp
  ring

def ρ0 : String → ℚ := fun v => if v = hName then 1 else if v = rName then 3 else 0

/-- Witness for C7 with the identity simplifier, evaluated at r = 3, h = 1. -/
theorem c7_rsq_stencil_is_2r_witness :
    (∃ st, generate_central_diff id rSquared rName 2 = Except.ok (st, errLabel2) ∧
      ∀ ρ : String → ℚ, ρ hName ≠ 0 → evalO ρ st = some (2 * ρ rName)) ∧
    evalO ρ0 (centralStencil2 rSquared rName) = some 6 :=
  ⟨c7_rsq_stencil_is_2r id (fun _ _ _ h => h), by
    have h1 : ρ0 hName = 1 := rfl
    have h2 : ρ0 rName = 3 := rfl
    simp only [centralStencil2, rSquared, Expr.subs, evalO, Option.map,
      if_pos rfl, Int.cast_ofNat, h1, h2]
    norm_num⟩

set_option maxRecDepth 4000 in
/-- C8: an input with zero display-math segments produces the combined
document consisting of exactly the documentclass/preamble lines, the
begin/end-document markers and the section header, with zero stencil
display-math blocks (the skeleton itself contains no `\[ ... \]` segment). -/
theorem c8_empty_input_skeleton (p : Str → Except Str Expr) (sf : Expr → Expr)
    (latexOf : Expr → Str) (tex : Str) (h : extract_expressions tex = []) :
    fullRun p sf latexOf tex = docHeader ++ endDocument ∧
      extract_expressions (docHeader ++ endDocument) = [] := by
  constructor
  · simp only [fullRun, runStencils, h, runSegments, combinedDocument, stencilBlocks]
    simp
  · decide

/-- Witness for C8 on an input with no display math. -/
theorem c8_empty_input_skeleton_witness :
    extract_expressions ("no display math".data) = [] ∧
      fullRun pRT id (fun _ => []) ("no display math".data) = docHeader ++ endDocument :=
  ⟨by decide,
   (c8_empty_input_skeleton pRT id (fun _ => []) ("no display math".data) (by decide)).1⟩

/-- C9: the pipeline from input text to combined-document content is a
deterministic function of the input: two runs on equal input texts (with the
external library fixed) produce byte-identical combined output. -/
theorem c9_deterministic_output (p : Str → Except Str Expr) (sf : Expr → Expr)
    (latexOf : Expr → Str) (t1 t2 : Str) (h : t1 = t2) :
    fullRun p sf latexOf t1 = fullRun p sf latexOf t2 := by
  rw [h]

/-- Witness for C9 on a concrete input. -/
theorem c9_deterministic_output_witness :
    fullRun pRT id (fun _ => []) texRT = fullRun pRT id (fun _ => []) texRT :=
  c9_deterministic_output pRT id (fun _ => []) texRT texRT rfl
